import Mathlib

/-!
Verification of the entropy-driven Wordle solver core
(`ml/generate_optimal_trajectories.py` and the second feedback oracle in
`ml/generate_quick_trajectories.py`).

Words are modelled as `List Char`, feedback patterns as `List Tile`.
Python's `collections.Counter` is modelled as a function `Char → Int`
(`Counter(secret)[c]` is the number of occurrences of `c` in `secret`;
a lookup of an absent key yields `0` and does not insert the key, and
`-=` never removes a key, so the key set of `secret_counts` stays exactly
the set of characters occurring in `secret` throughout both passes).

Fallible Python code (an out-of-range index raises `IndexError`) is
modelled with `Option`: `none` is an uncaught exception.
-/

namespace Wordle

/-- Tile states: the three strings `'correct'`, `'present'`, `'absent'`
(`generate_optimal_trajectories.py` lines 18-20). The spec's `unknown`
state never appears in the solver core. -/
inductive Tile where
  | correct
  | present
  | absent
deriving DecidableEq, Repr

/-- `Counter(secret)`: per-letter occurrence count of `secret`
(`generate_feedback` line 33). -/
def counter (secret : List Char) : Char → Int :=
  fun c => (secret.count c : Int)

/-- `cnt[c] -= 1`: decrement one key of a counter. -/
def decr (cnt : Char → Int) (c : Char) : Char → Int :=
  fun x => if x = c then cnt x - 1 else cnt x

/-- First pass of `generate_feedback` (lines 36-39 of
`generate_optimal_trajectories.py`, equally lines 18-21 of
`generate_quick_trajectories.py`): walk the positions left to right,
mark `correct` where `guess[i] == secret[i]` and decrement that letter's
count, else leave the tile `absent`.  The Python loop bound
(`len(secret)` in the optimal file, `len(guess)` in the quick file)
always equals the length of the shorter list on the inputs where the
Python code does not raise, so pairwise recursion captures both loops;
the out-of-range cases are handled in the `Option` wrappers below. -/
def pass1 : List Char → List Char → (Char → Int) → List Tile × (Char → Int)
  | g :: gs, s :: ss, cnt =>
    if g = s then
      let r := pass1 gs ss (decr cnt g)
      (Tile.correct :: r.1, r.2)
    else
      let r := pass1 gs ss cnt
      (Tile.absent :: r.1, r.2)
  | _, _, cnt => ([], cnt)

/-- Second pass of `generate_feedback` in
`generate_optimal_trajectories.py` (lines 42-46): for each position, if
the tile is not `correct` and the guessed letter is a key of the counter
(i.e. occurs in `secret`), and its remaining count is positive, mark
`present` and decrement.  Recursion is over the guess and the feedback
array; a leftover suffix of the feedback array is returned untouched. -/
def pass2opt (secret : List Char) : List Char → List Tile → (Char → Int) → List Tile
  | g :: gs, f :: fs, cnt =>
    if f ≠ Tile.correct ∧ g ∈ secret then
      if 0 < cnt g then Tile.present :: pass2opt secret gs fs (decr cnt g)
      else f :: pass2opt secret gs fs cnt
    else f :: pass2opt secret gs fs cnt
  | _, fs, _ => fs

/-- Second pass of `generate_feedback` in
`generate_quick_trajectories.py` (lines 24-28): identical tests to
`pass2opt`, nested as in that file (`feedback[i] != 'correct'` first,
then `guess[i] in secret_counts and secret_counts[guess[i]] > 0`). -/
def pass2q (secret : List Char) : List Char → List Tile → (Char → Int) → List Tile
  | g :: gs, f :: fs, cnt =>
    if f ≠ Tile.correct then
      if g ∈ secret ∧ 0 < cnt g then Tile.present :: pass2q secret gs fs (decr cnt g)
      else f :: pass2q secret gs fs cnt
    else f :: pass2q secret gs fs cnt
  | _, fs, _ => fs

/-- The two passes of `generate_feedback`
(`generate_optimal_trajectories.py` lines 29-48) on inputs where no
index is out of range. -/
def feedback_total (guess secret : List Char) : List Tile :=
  pass2opt secret guess (pass1 guess secret (counter secret)).1
    (pass1 guess secret (counter secret)).2

/-- `generate_feedback` of `generate_optimal_trajectories.py` (lines
29-48).  Both loops run `for i in range(len(secret))` and index
`guess[i]`, so the call raises `IndexError` (modelled `none`) exactly
when `len(guess) < len(secret)`; when `len(guess) >= len(secret)` no
index is out of range and the loops never look at `guess[i]` for
`i >= len(secret)`. -/
def generate_feedback (guess secret : List Char) : Option (List Tile) :=
  if guess.length < secret.length then none
  else some (feedback_total guess secret)

/-- The two passes of the quick-file oracle on inputs where no index is
out of range: positions `>= len(guess)` of the initial
`['absent'] * len(secret)` array are never touched by its
`range(len(guess))` loops. -/
def feedback_total_quick (guess secret : List Char) : List Tile :=
  pass2q secret guess
    ((pass1 guess secret (counter secret)).1 ++
      List.replicate (secret.length - guess.length) Tile.absent)
    (pass1 guess secret (counter secret)).2

/-- `generate_feedback` of `generate_quick_trajectories.py` (lines
12-30).  Both loops run `for i in range(len(guess))` and index
`secret[i]` and `feedback[i]` (an array of length `len(secret)`), so the
call raises `IndexError` (modelled `none`) exactly when
`len(guess) > len(secret)`. -/
def generate_feedback_quick (guess secret : List Char) : Option (List Tile) :=
  if secret.length < guess.length then none
  else some (feedback_total_quick guess secret)

/-- `apply_feedback_to_candidates` (`generate_optimal_trajectories.py`
lines 51-61): keep the words whose oracle pattern against `guess`
equals the observed `feedback`, preserving order; an exception from
`generate_feedback` propagates (`none`). -/
def apply_feedback_to_candidates : List (List Char) → List Char → List Tile →
    Option (List (List Char))
  | [], _, _ => some []
  | w :: ws, guess, feedback =>
    (generate_feedback guess w).bind fun test_feedback =>
    (apply_feedback_to_candidates ws guess feedback).map fun rest =>
    if test_feedback = feedback then w :: rest else rest

/-- The feedback patterns of every pool member against `guess`, in pool
order (`calculate_entropy` lines 75-78 collect exactly these); an
exception from `generate_feedback` propagates. -/
def feedbacks_of : List (List Char) → List Char → Option (List (List Tile))
  | [], _ => some []
  | w :: ws, guess =>
    (generate_feedback guess w).bind fun fb =>
    (feedbacks_of ws guess).map fun rest => fb :: rest

/-- The entropy computation of `calculate_entropy` (lines 73-89) on the
list of produced patterns: `pattern_counts` is a dict mapping each
distinct pattern to its multiplicity, and the result is
`-Σ (c/total) * log2 (c/total)` over its values.  `patterns.dedup`
enumerates each distinct pattern (each dict key) exactly once; real
addition is commutative, so the enumeration order of the dict does not
affect the sum. -/
noncomputable def entropy_core (patterns : List (List Tile)) : ℝ :=
  -(patterns.dedup.map (fun p =>
      if 0 < patterns.count p then
        ((patterns.count p : ℝ) / patterns.length) *
          Real.logb 2 ((patterns.count p : ℝ) / patterns.length)
      else 0)).sum

/-- `calculate_entropy` (`generate_optimal_trajectories.py` lines
64-89): `0.0` for an empty pool, else the entropy of the partition of
the pool by feedback pattern against `guess`. -/
noncomputable def calculate_entropy (guess : List Char) (candidates : List (List Char)) :
    Option ℝ :=
  if candidates = [] then some 0
  else (feedbacks_of candidates guess).map entropy_core

/-- The `common_starters` table of `get_optimal_guess` (lines 118-124);
lengths without an entry contribute no words (`if length in
common_starters` fails). -/
def common_starters (n : Nat) : List (List Char) :=
  if n = 3 then
    [['a','r','e'], ['a','t','e'], ['e','a','r']]
  else if n = 4 then
    [['t','e','a','r'], ['r','a','t','e'], ['l','a','t','e']]
  else if n = 5 then
    [['a','r','o','s','e'], ['s','l','a','t','e'], ['c','r','a','n','e']]
  else if n = 6 then
    [['s','t','r','a','i','n'], ['t','r','a','i','n','s'], ['g','r','a','i','n','s']]
  else if n = 7 then
    [['s','t','a','i','n','e','r'], ['t','r','a','i','n','e','d'], ['d','e','t','a','i','n','s']]
  else []

/-- The `words_to_evaluate` list of `get_optimal_guess` before the
final `max_search` truncation (lines 108-129): all of the pool when
`|pool| <= 10`, else the first 20 pool words, augmented — when
`|pool| > 50` — with the starter words for the length of
`candidates[0]` that are in `all_words` and not already collected. -/
def words_pre (candidates all_words : List (List Char)) : List (List Char) :=
  if candidates.length ≤ 10 then candidates
  else
    if 50 < candidates.length then
      match candidates.head? with
      | some c0 =>
        (common_starters c0.length).foldl
          (fun acc w => if w ∈ all_words ∧ w ∉ acc then acc ++ [w] else acc)
          (candidates.take 20)
      | none => candidates.take 20
    else candidates.take 20

/-- `words_to_evaluate` after the truncation of lines 132-133: capped
at `max_search` words. -/
def evaluation_set (candidates all_words : List (List Char)) (max_search : Nat) :
    List (List Char) :=
  if max_search < (words_pre candidates all_words).length
  then (words_pre candidates all_words).take max_search
  else words_pre candidates all_words

/-- The scoring loop of `get_optimal_guess` (lines 139-148): fold over
the words to evaluate, keeping the best `(word, score)` pair seen so
far, where `score = entropy + 0.1`-bonus for pool members and a new
word wins only on a strictly greater score. -/
noncomputable def best_loop (candidates : List (List Char)) :
    List (List Char) → List Char × ℝ → Option (List Char × ℝ)
  | [], best => some best
  | w :: ws, best =>
    (calculate_entropy w candidates).bind fun entropy =>
    let score := entropy + (if w ∈ candidates then (0.1 : ℝ) else 0)
    best_loop candidates ws (if best.2 < score then (w, score) else best)

/-- `get_optimal_guess` (`generate_optimal_trajectories.py` lines
92-150).  `candidates[0]` on an empty pool raises `IndexError`
(modelled `none`); the loop starts from `best_word = candidates[0]`,
`best_score = -1.0`. -/
noncomputable def get_optimal_guess (candidates all_words : List (List Char))
    (max_search : Nat) : Option (List Char) :=
  if candidates.length = 1 then candidates.head?
  else if candidates.length = 2 then candidates.head?
  else
    match candidates.head? with
    | none => none
    | some c0 =>
      (best_loop candidates (evaluation_set candidates all_words max_search)
        (c0, (-1 : ℝ))).map Prod.fst

/-- The trajectory dict returned by `play_optimal_game` (lines
185-191). -/
structure GameResult where
  secret : List Char
  guesses : List (List Char)
  feedbacks : List (List Tile)
  won : Bool
  num_guesses : Nat
deriving Repr, DecidableEq

/-- The `for guess_num in range(max_guesses)` loop of
`play_optimal_game` (lines 163-183), with the remaining iteration count
as fuel: pick the optimal guess, score it, record it, stop with
`won = True` on a hit, else filter the pool and stop early when it
becomes empty. -/
noncomputable def play_loop (secret : List Char) (all_words : List (List Char)) :
    Nat → List (List Char) → List (List Char) → List (List Tile) →
    Option (List (List Char) × List (List Tile) × Bool)
  | 0, _, guesses, feedbacks => some (guesses, feedbacks, false)
  | fuel + 1, candidates, guesses, feedbacks =>
    (get_optimal_guess candidates all_words 30).bind fun guess =>
    (generate_feedback guess secret).bind fun feedback =>
    let guesses' := guesses ++ [guess]
    let feedbacks' := feedbacks ++ [feedback]
    if guess = secret then some (guesses', feedbacks', true)
    else
      (apply_feedback_to_candidates candidates guess feedback).bind fun candidates' =>
      if candidates'.length = 0 then some (guesses', feedbacks', false)
      else play_loop secret all_words fuel candidates' guesses' feedbacks'

/-- `play_optimal_game` (`generate_optimal_trajectories.py` lines
153-191): run the loop from the full dictionary and package the
trajectory (`num_guesses = len(guesses)`). -/
noncomputable def play_optimal_game (secret : List Char) (all_words : List (List Char))
    (max_guesses : Nat) : Option GameResult :=
  (play_loop secret all_words max_guesses all_words [] []).map fun r =>
    { secret := secret, guesses := r.1, feedbacks := r.2.1, won := r.2.2,
      num_guesses := r.1.length }

/-- Number of feedback tiles for letter `L` that are marked `correct`
or `present`, pairing the guess with its feedback positionally. -/
def tilesFor (guess : List Char) (fb : List Tile) (L : Char) : Nat :=
  (guess.zip fb).countP fun p =>
    decide (p.1 = L ∧ (p.2 = Tile.correct ∨ p.2 = Tile.present))

/-! ### Structural lemmas about the oracle passes -/

theorem pass1_take (g s : List Char) (cnt : Char → Int) :
    pass1 (g.take s.length) s cnt = pass1 g s cnt := by
  induction g generalizing s cnt with
  | nil => simp
  | cons a gs ih =>
    cases s with
    | nil => simp [pass1]
    | cons b ss =>
      simp only [List.length_cons, List.take_succ_cons, pass1]
      simp only [ih]

theorem pass1_fst_length (g s : List Char) (cnt : Char → Int) :
    (pass1 g s cnt).1.length = min g.length s.length := by
  induction g generalizing s cnt with
  | nil => cases s <;> simp [pass1]
  | cons a gs ih =>
    cases s with
    | nil => simp [pass1]
    | cons b ss =>
      simp only [pass1]
      split <;> simp [ih, Nat.succ_min_succ]

theorem pass2opt_take (s : List Char) (g : List Char) (fs : List Tile) (cnt : Char → Int) :
    pass2opt s (g.take fs.length) fs cnt = pass2opt s g fs cnt := by
  induction g generalizing fs cnt with
  | nil => simp
  | cons a gs ih =>
    cases fs with
    | nil => simp [pass2opt]
    | cons f fs' =>
      simp only [List.length_cons, List.take_succ_cons, pass2opt]
      split
      · split
        · rw [ih fs']
        · rw [ih fs']
      · rw [ih fs']

theorem pass2opt_eq_pass2q (s : List Char) (g : List Char) (fs : List Tile)
    (cnt : Char → Int) : pass2opt s g fs cnt = pass2q s g fs cnt := by
  induction g generalizing fs cnt with
  | nil => cases fs <;> simp [pass2opt, pass2q]
  | cons a gs ih =>
    cases fs with
    | nil => simp [pass2opt, pass2q]
    | cons f fs' =>
      simp only [pass2opt, pass2q]
      by_cases hf : f = Tile.correct
      · simp [hf, ih]
      · by_cases hm : a ∈ s
        · by_cases hc : (0 : Int) < cnt a
          · simp [hf, hm, hc, ih]
          · simp [hf, hm, hc, ih]
        · simp [hf, hm, ih]

/-- On inputs where the optimal-file oracle does not raise, it returns
the two-pass pattern computed from the first `len(secret)` characters of
the guess. -/
theorem generate_feedback_eq (guess secret : List Char) :
    generate_feedback guess secret =
      if guess.length < secret.length then none
      else some (feedback_total (guess.take secret.length) secret) := by
  unfold generate_feedback
  split
  · rfl
  · rename_i h
    have hle : secret.length ≤ guess.length := Nat.le_of_not_lt h
    unfold feedback_total
    rw [pass1_take]
    have hlen : (pass1 guess secret (counter secret)).1.length = secret.length := by
      rw [pass1_fst_length]; omega
    rw [← pass2opt_take secret guess _ _, hlen]

/-- C1: the spec demands that `generate_feedback` fail immediately and
loudly on every length mismatch and never silently truncate.  The code
only raises (`IndexError`) when the guess is shorter than the secret;
when the guess is longer it silently truncates the guess to the
secret's length and returns a pattern.  Counterexample at
`guess = "ab"`, `secret = "a"`. -/
theorem claim_C1_counterexample :
    (['a', 'b'] : List Char).length ≠ (['a'] : List Char).length ∧
      generate_feedback ['a', 'b'] ['a'] = some [Tile.correct] := by
  decide

/-- C1 (amended): `generate_feedback guess secret` raises exactly when
`len(guess) < len(secret)`; when `len(guess) ≥ len(secret)` it does not
fail but silently truncates the guess to the secret's length and
returns the feedback pattern of the truncated guess. -/
theorem claim_C1_amended (guess secret : List Char) :
    generate_feedback guess secret =
      if guess.length < secret.length then none
      else some (feedback_total (guess.take secret.length) secret) :=
  generate_feedback_eq guess secret

/-- The two feedback oracles agree on equal-length inputs (shared
helper). -/
theorem quick_eq_opt {guess secret : List Char} (h : guess.length = secret.length) :
    generate_feedback_quick guess secret = generate_feedback guess secret := by
  unfold generate_feedback generate_feedback_quick feedback_total feedback_total_quick
  rw [h]
  simp only [lt_irrefl, if_false]
  rw [pass2opt_eq_pass2q]
  simp

/-- C9: the independently written feedback oracles of
`generate_optimal_trajectories.py` and `generate_quick_trajectories.py`
compute the same function on every pair of equal-length words. -/
theorem claim_C9 (guess secret : List Char) (h : guess.length = secret.length) :
    generate_feedback guess secret = generate_feedback_quick guess secret :=
  (quick_eq_opt h).symm

/-- C9 witness. -/
theorem claim_C9_witness :
    (['a', 'b'] : List Char).length = (['b', 'a'] : List Char).length ∧
      generate_feedback ['a', 'b'] ['b', 'a'] = generate_feedback_quick ['a', 'b'] ['b', 'a'] :=
  ⟨by decide, claim_C9 ['a', 'b'] ['b', 'a'] (by decide)⟩

/-! ### Lemmas about the candidate filter -/

theorem apply_feedback_cases (w : List Char) (ws : List (List Char)) (guess : List Char)
    (feedback : List Tile) (l : List (List Char))
    (h : apply_feedback_to_candidates (w :: ws) guess feedback = some l) :
    ∃ tf rest, generate_feedback guess w = some tf ∧
      apply_feedback_to_candidates ws guess feedback = some rest ∧
      l = if tf = feedback then w :: rest else rest := by
  cases hfw : generate_feedback guess w with
  | none => simp [apply_feedback_to_candidates, hfw] at h
  | some tf =>
    cases hws : apply_feedback_to_candidates ws guess feedback with
    | none => simp [apply_feedback_to_candidates, hfw, hws] at h
    | some rest =>
      refine ⟨tf, rest, rfl, rfl, ?_⟩
      simp only [apply_feedback_to_candidates, hfw, hws, Option.some_bind, Option.map_some',
        Option.some_inj] at h
      exact h.symm

theorem apply_feedback_sublist (pool : List (List Char)) (guess : List Char)
    (feedback : List Tile) (l : List (List Char))
    (h : apply_feedback_to_candidates pool guess feedback = some l) :
    l.Sublist pool := by
  induction pool generalizing l with
  | nil =>
    simp only [apply_feedback_to_candidates, Option.some_inj] at h
    simp [← h]
  | cons w ws ih =>
    obtain ⟨tf, rest, _, hws, hl⟩ := apply_feedback_cases w ws guess feedback l h
    subst hl
    split
    · exact (ih rest hws).cons₂ w
    · exact (ih rest hws).cons w

theorem apply_feedback_idem (pool : List (List Char)) (guess : List Char)
    (feedback : List Tile) (l : List (List Char))
    (h : apply_feedback_to_candidates pool guess feedback = some l) :
    apply_feedback_to_candidates l guess feedback = some l := by
  induction pool generalizing l with
  | nil =>
    simp only [apply_feedback_to_candidates, Option.some_inj] at h
    simp [← h, apply_feedback_to_candidates]
  | cons w ws ih =>
    obtain ⟨tf, rest, hfw, hws, hl⟩ := apply_feedback_cases w ws guess feedback l h
    subst hl
    split
    · rename_i htf
      simp [apply_feedback_to_candidates, hfw, ih rest hws, htf]
    · exact ih rest hws

/-- C8: the candidate filter is idempotent and shrinking. -/
theorem claim_C8 (pool : List (List Char)) (guess : List Char) (feedback : List Tile)
    (newPool : List (List Char))
    (h : apply_feedback_to_candidates pool guess feedback = some newPool) :
    apply_feedback_to_candidates newPool guess feedback = some newPool ∧
      newPool.length ≤ pool.length :=
  ⟨apply_feedback_idem pool guess feedback newPool h,
    (apply_feedback_sublist pool guess feedback newPool h).length_le⟩

/-- C8 witness. -/
theorem claim_C8_witness :
    apply_feedback_to_candidates [['a'], ['b']] ['a'] [Tile.correct] = some [['a']] ∧
      (apply_feedback_to_candidates [['a']] ['a'] [Tile.correct] = some [['a']] ∧
        ([['a']] : List (List Char)).length ≤ ([['a'], ['b']] : List (List Char)).length) :=
  ⟨by decide, claim_C8 [['a'], ['b']] ['a'] [Tile.correct] [['a']] (by decide)⟩

/-- C10: the candidate filter returns a subsequence of its input pool:
surviving words keep their relative order and no word is added or
duplicated. -/
theorem claim_C10 (pool : List (List Char)) (guess : List Char) (feedback : List Tile)
    (newPool : List (List Char))
    (h : apply_feedback_to_candidates pool guess feedback = some newPool) :
    newPool.Sublist pool :=
  apply_feedback_sublist pool guess feedback newPool h

/-- C10 witness. -/
theorem claim_C10_witness :
    apply_feedback_to_candidates [['a'], ['b']] ['a'] [Tile.correct] = some [['a']] ∧
      ([['a']] : List (List Char)).Sublist [['a'], ['b']] :=
  ⟨by decide, claim_C10 [['a'], ['b']] ['a'] [Tile.correct] [['a']] (by decide)⟩

/-! ### Counting lemmas: correct tiles and the per-letter budget -/

/-- The tiles produced by pass 1 are determined positionally: `correct`
exactly where guess and secret agree. -/
theorem pass1_fst_eq (g s : List Char) (cnt : Char → Int) :
    (pass1 g s cnt).1 =
      List.zipWith (fun a b => if a = b then Tile.correct else Tile.absent) g s := by
  induction g generalizing s cnt with
  | nil => cases s <;> simp [pass1]
  | cons a gs ih =>
    cases s with
    | nil => simp [pass1]
    | cons b ss =>
      simp only [pass1, List.zipWith_cons_cons]
      split <;> simp [ih]

theorem present_not_mem_pass1 (g s : List Char) (cnt : Char → Int) :
    Tile.present ∉ (pass1 g s cnt).1 := by
  rw [pass1_fst_eq]
  induction g generalizing s cnt with
  | nil => simp
  | cons a gs ih =>
    cases s with
    | nil => simp
    | cons b ss =>
      simp only [List.zipWith_cons_cons, List.mem_cons, not_or]
      refine ⟨?_, ih ss cnt⟩
      by_cases h : a = b <;> simp [h]

theorem pass2opt_count_correct (s : List Char) (g : List Char) (fs : List Tile)
    (cnt : Char → Int) :
    (pass2opt s g fs cnt).count Tile.correct = fs.count Tile.correct := by
  induction g generalizing fs cnt with
  | nil => cases fs <;> simp [pass2opt]
  | cons a gs ih =>
    cases fs with
    | nil => simp [pass2opt]
    | cons f fs' =>
      simp only [pass2opt]
      split
      · rename_i hcond
        split
        · simp [List.count_cons, ih, hcond.1]
        · simp [List.count_cons, ih]
      · simp [List.count_cons, ih]

theorem zipWith_count_correct (g s : List Char) :
    (List.zipWith (fun a b => if a = b then Tile.correct else Tile.absent) g s).count
        Tile.correct =
      (g.zip s).countP fun p => decide (p.1 = p.2) := by
  induction g generalizing s with
  | nil => cases s <;> simp
  | cons a gs ih =>
    cases s with
    | nil => simp
    | cons b ss =>
      simp only [List.zipWith_cons_cons, List.zip_cons_cons, List.countP_cons, List.count_cons]
      by_cases h : a = b <;> simp [h, ih]

theorem pass2opt_replicate_correct (s : List Char) (g : List Char) (n : Nat)
    (cnt : Char → Int) :
    pass2opt s g (List.replicate n Tile.correct) cnt = List.replicate n Tile.correct := by
  induction g generalizing n cnt with
  | nil => cases n <;> simp [pass2opt]
  | cons a gs ih =>
    cases n with
    | zero => simp [pass2opt]
    | succ m => simp [List.replicate_succ, pass2opt, ih]

/-- C7: on equal-length inputs the number of `correct` tiles equals the
number of positions where guess and secret agree, and
`generate_feedback(secret, secret)` is all `correct`. -/
theorem claim_C7 (guess secret : List Char) (h : guess.length = secret.length) :
    ∃ fb, generate_feedback guess secret = some fb ∧
      fb.count Tile.correct = ((guess.zip secret).countP fun p => decide (p.1 = p.2)) ∧
      generate_feedback secret secret = some (List.replicate secret.length Tile.correct) := by
  refine ⟨feedback_total guess secret, ?_, ?_, ?_⟩
  · unfold generate_feedback
    rw [if_neg (by omega)]
  · unfold feedback_total
    rw [pass2opt_count_correct, pass1_fst_eq, zipWith_count_correct]
  · unfold generate_feedback
    rw [if_neg (by omega)]
    unfold feedback_total
    rw [pass1_fst_eq]
    have hzip : List.zipWith (fun a b => if a = b then Tile.correct else Tile.absent)
        secret secret = List.replicate secret.length Tile.correct := by
      induction secret with
      | nil => simp
      | cons b ss ihs => simp [List.replicate_succ, ihs]
    rw [hzip, pass2opt_replicate_correct]

/-- C7 witness. -/
theorem claim_C7_witness :
    (['a', 'b'] : List Char).length = (['b', 'b'] : List Char).length ∧
      ∃ fb, generate_feedback ['a', 'b'] ['b', 'b'] = some fb ∧
        fb.count Tile.correct =
          (((['a', 'b'] : List Char).zip ['b', 'b']).countP fun p => decide (p.1 = p.2)) ∧
        generate_feedback ['b', 'b'] ['b', 'b'] =
          some (List.replicate (['b', 'b'] : List Char).length Tile.correct) :=
  ⟨by decide, claim_C7 ['a', 'b'] ['b', 'b'] (by decide)⟩

theorem pass1_snd_eq (g s : List Char) (cnt : Char → Int) (L : Char) :
    (pass1 g s cnt).2 L =
      cnt L - ((g.zip s).countP fun p => decide (p.1 = L ∧ p.1 = p.2)) := by
  induction g generalizing s cnt with
  | nil => cases s <;> simp [pass1]
  | cons a gs ih =>
    cases s with
    | nil => simp [pass1]
    | cons b ss =>
      by_cases hab : a = b
      · subst hab
        by_cases haL : a = L
        · subst haL
          have hIH := ih ss (decr cnt a)
          simp only [pass1, if_pos rfl, List.zip_cons_cons, List.countP_cons]
          simp only [decr, if_pos rfl] at hIH
          simp [hIH]
          ring
        · have haL' : L ≠ a := fun hc => haL hc.symm
          have hIH := ih ss (decr cnt a)
          simp only [pass1, if_pos rfl, List.zip_cons_cons, List.countP_cons]
          simp only [decr, if_neg haL'] at hIH
          simp [hIH, haL]
      · have hIH := ih ss cnt
        simp only [pass1, if_neg hab, List.zip_cons_cons, List.countP_cons]
        simp [hIH, hab]

theorem zip_pass1_countL (g s : List Char) (L : Char) :
    ((g.zip (List.zipWith (fun a b => if a = b then Tile.correct else Tile.absent) g s)).countP
        fun p => decide (p.1 = L ∧ p.2 = Tile.correct)) =
      ((g.zip s).countP fun p => decide (p.1 = L ∧ p.1 = p.2)) := by
  induction g generalizing s with
  | nil => cases s <;> simp
  | cons a gs ih =>
    cases s with
    | nil => simp
    | cons b ss =>
      have hIH := ih ss
      by_cases hab : a = b
      · subst hab
        by_cases haL : a = L
        · subst haL
          simp only [List.zipWith_cons_cons, if_pos rfl, List.zip_cons_cons,
            List.countP_cons]
          simp at hIH ⊢
          omega
        · simp only [List.zipWith_cons_cons, if_pos rfl, List.zip_cons_cons,
            List.countP_cons]
          simp [haL] at hIH ⊢
          omega
      · simp only [List.zipWith_cons_cons, if_neg hab, List.zip_cons_cons,
          List.countP_cons]
        simp [hab] at hIH ⊢
        omega

theorem matches_le_count (g s : List Char) (L : Char) :
    ((g.zip s).countP fun p => decide (p.1 = L ∧ p.1 = p.2)) ≤ s.count L := by
  induction g generalizing s with
  | nil => cases s <;> simp
  | cons a gs ih =>
    cases s with
    | nil => simp
    | cons b ss =>
      have hIH := ih ss
      simp only [List.zip_cons_cons, List.countP_cons, List.count_cons]
      by_cases hab : a = b
      · subst hab
        by_cases haL : a = L
        · subst haL
          simp at hIH ⊢
          omega
        · simp [haL] at hIH ⊢
          omega
      · simp [hab] at hIH ⊢
        split <;> omega

/-- Pass 2 never awards more `present`+`correct` tiles for a letter than
the pass-1 `correct` tiles plus the remaining counter budget. -/
theorem pass2opt_budget (s : List Char) (L : Char) (g : List Char) (fs : List Tile)
    (cnt : Char → Int) (hp : Tile.present ∉ fs) (hcnt : 0 ≤ cnt L) :
    (((g.zip (pass2opt s g fs cnt)).countP fun p =>
        decide (p.1 = L ∧ (p.2 = Tile.correct ∨ p.2 = Tile.present))) : Int)
      ≤ (((g.zip fs).countP fun p => decide (p.1 = L ∧ p.2 = Tile.correct)) : Int)
        + cnt L := by
  induction g generalizing fs cnt with
  | nil =>
    simpa using hcnt
  | cons a gs ih =>
    cases fs with
    | nil =>
      simp only [pass2opt, List.zip_nil_right, List.countP_nil, Nat.cast_zero, zero_add]
      exact hcnt
    | cons f fs' =>
      have hf : f ≠ Tile.present := fun hcontra => hp (hcontra ▸ List.mem_cons_self f fs')
      have hp' : Tile.present ∉ fs' := fun hcontra => hp (List.mem_cons_of_mem f hcontra)
      simp only [pass2opt]
      by_cases h1 : f ≠ Tile.correct ∧ a ∈ s
      · rw [if_pos h1]
        by_cases h2 : (0 : Int) < cnt a
        · rw [if_pos h2]
          by_cases haL : a = L
          · subst haL
            have hdecr : decr cnt a a = cnt a - 1 := by
              unfold decr
              rw [if_pos rfl]
            have hIH := ih fs' (decr cnt a) hp' (by omega)
            rw [hdecr] at hIH
            simp only [List.zip_cons_cons, List.countP_cons]
            simp [h1.1] at hIH ⊢
            omega
          · have haL' : L ≠ a := fun hc => haL hc.symm
            have hdecr : decr cnt a L = cnt L := by
              unfold decr
              rw [if_neg haL']
            have hIH := ih fs' (decr cnt a) hp' (hdecr ▸ hcnt)
            rw [hdecr] at hIH
            simp only [List.zip_cons_cons, List.countP_cons]
            simp [haL] at hIH ⊢
            omega
        · rw [if_neg h2]
          have hIH := ih fs' cnt hp' hcnt
          simp only [List.zip_cons_cons, List.countP_cons]
          simp [hf] at hIH ⊢
          split <;> omega
      · rw [if_neg h1]
        have hIH := ih fs' cnt hp' hcnt
        simp only [List.zip_cons_cons, List.countP_cons]
        simp [hf] at hIH ⊢
        split <;> omega

/-- Letter budget for the total two-pass oracle (shared helper). -/
theorem tilesFor_le_count (guess secret : List Char) (L : Char) :
    tilesFor guess (feedback_total guess secret) L ≤ secret.count L := by
  have hm := matches_le_count guess secret L
  have hsnd := pass1_snd_eq guess secret (counter secret) L
  have hcnt : 0 ≤ (pass1 guess secret (counter secret)).2 L := by
    rw [hsnd]
    unfold counter
    omega
  have hbudget := pass2opt_budget secret L guess
    (pass1 guess secret (counter secret)).1
    (pass1 guess secret (counter secret)).2
    (present_not_mem_pass1 guess secret (counter secret)) hcnt
  have hcorrect : ((guess.zip (pass1 guess secret (counter secret)).1).countP
      fun p => decide (p.1 = L ∧ p.2 = Tile.correct)) =
      ((guess.zip secret).countP fun p => decide (p.1 = L ∧ p.1 = p.2)) := by
    rw [pass1_fst_eq, zip_pass1_countL]
  have hfinal : (tilesFor guess (feedback_total guess secret) L : Int) ≤
      (secret.count L : Int) := by
    unfold tilesFor feedback_total
    rw [hcorrect, hsnd] at hbudget
    unfold counter at hbudget
    refine le_trans hbudget ?_
    omega
  exact_mod_cast hfinal

/-- C2: for equal-length inputs and any letter `L`, both oracles agree
and the total number of `correct` plus `present` tiles carrying `L`
never exceeds the number of occurrences of `L` in the secret. -/
theorem claim_C2 (guess secret : List Char) (h : guess.length = secret.length) (L : Char) :
    ∃ fb, generate_feedback guess secret = some fb ∧
      generate_feedback_quick guess secret = some fb ∧
      tilesFor guess fb L ≤ secret.count L := by
  refine ⟨feedback_total guess secret, ?_, ?_, tilesFor_le_count guess secret L⟩
  · unfold generate_feedback
    rw [if_neg (by omega)]
  · rw [quick_eq_opt h]
    unfold generate_feedback
    rw [if_neg (by omega)]

/-- C2 witness. -/
theorem claim_C2_witness :
    (['a', 'a'] : List Char).length = (['a', 'b'] : List Char).length ∧
      ∃ fb, generate_feedback ['a', 'a'] ['a', 'b'] = some fb ∧
        generate_feedback_quick ['a', 'a'] ['a', 'b'] = some fb ∧
        tilesFor ['a', 'a'] fb 'a' ≤ (['a', 'b'] : List Char).count 'a' :=
  ⟨by decide, claim_C2 ['a', 'a'] ['a', 'b'] (by decide) 'a'⟩

/-! ### Success and retention lemmas for the filter, entropy and selector -/

theorem generate_feedback_some {guess secret : List Char}
    (h : secret.length ≤ guess.length) :
    generate_feedback guess secret = some (feedback_total guess secret) := by
  unfold generate_feedback
  rw [if_neg (by omega)]

theorem apply_feedback_some (pool : List (List Char)) (guess : List Char) (fb : List Tile)
    (h : ∀ w ∈ pool, w.length ≤ guess.length) :
    ∃ l, apply_feedback_to_candidates pool guess fb = some l := by
  induction pool with
  | nil => exact ⟨[], rfl⟩
  | cons w ws ih =>
    obtain ⟨l, hl⟩ := ih fun u hu => h u (List.mem_cons_of_mem w hu)
    have hw : generate_feedback guess w = some (feedback_total guess w) :=
      generate_feedback_some (h w (List.mem_cons_self w ws))
    refine ⟨if feedback_total guess w = fb then w :: l else l, ?_⟩
    simp [apply_feedback_to_candidates, hw, hl]

theorem apply_feedback_retention (pool : List (List Char)) (guess secret : List Char)
    (l : List (List Char)) (hmem : secret ∈ pool)
    (h : apply_feedback_to_candidates pool guess (feedback_total guess secret) = some l) :
    secret ∈ l := by
  induction pool generalizing l with
  | nil => cases hmem
  | cons w ws ih =>
    obtain ⟨tf, rest, hfw, hws, hl⟩ := apply_feedback_cases _ _ _ _ _ h
    subst hl
    rcases List.mem_cons.mp hmem with hsw | hmem'
    · subst hsw
      have htf : tf = feedback_total guess secret := by
        unfold generate_feedback at hfw
        split at hfw
        · cases hfw
        · exact (Option.some_inj.mp hfw).symm
      rw [if_pos htf]
      exact List.mem_cons_self _ _
    · have hrest := ih rest hmem' hws
      split
      · exact List.mem_cons_of_mem _ hrest
      · exact hrest

theorem feedbacks_of_some (pool : List (List Char)) (guess : List Char)
    (h : ∀ w ∈ pool, w.length ≤ guess.length) :
    feedbacks_of pool guess = some (pool.map (feedback_total guess)) := by
  induction pool with
  | nil => rfl
  | cons w ws ih =>
    have hw : generate_feedback guess w = some (feedback_total guess w) :=
      generate_feedback_some (h w (List.mem_cons_self w ws))
    simp [feedbacks_of, hw, ih fun u hu => h u (List.mem_cons_of_mem w hu)]

theorem calculate_entropy_some (guess : List Char) (pool : List (List Char))
    (h : ∀ w ∈ pool, w.length ≤ guess.length) :
    calculate_entropy guess pool =
      some (entropy_core (pool.map (feedback_total guess))) := by
  unfold calculate_entropy
  by_cases hpool : pool = []
  · subst hpool
    simp [entropy_core]
  · rw [if_neg hpool, feedbacks_of_some pool guess h]
    rfl

theorem common_starters_length (n : Nat) (w : List Char) (hw : w ∈ common_starters n) :
    w.length = n := by
  unfold common_starters at hw
  split at hw
  · rename_i hn
    subst hn
    fin_cases hw <;> rfl
  · split at hw
    · rename_i hn
      subst hn
      fin_cases hw <;> rfl
    · split at hw
      · rename_i hn
        subst hn
        fin_cases hw <;> rfl
      · split at hw
        · rename_i hn
          subst hn
          fin_cases hw <;> rfl
        · split at hw
          · rename_i hn
            subst hn
            fin_cases hw <;> rfl
          · cases hw

theorem fold_starters_length (starters : List (List Char))
    (all_words : List (List Char)) (L : Nat) :
    ∀ start : List (List Char), (∀ w ∈ start, w.length = L) →
      (∀ w ∈ starters, w.length = L) →
      ∀ w ∈ starters.foldl
        (fun acc w => if w ∈ all_words ∧ w ∉ acc then acc ++ [w] else acc) start,
        w.length = L := by
  induction starters with
  | nil => exact fun start hstart _ => hstart
  | cons a as ih =>
    intro start hstart hst w hw
    simp only [List.foldl_cons] at hw
    refine ih _ ?_ (fun u hu => hst u (List.mem_cons_of_mem a hu)) w hw
    intro u hu
    split at hu
    · rcases List.mem_append.mp hu with h | h
      · exact hstart u h
      · rw [List.mem_singleton] at h
        rw [h]
        exact hst a (List.mem_cons_self a as)
    · exact hstart u hu

theorem fold_starters_length_ge (starters : List (List Char))
    (all_words : List (List Char)) :
    ∀ start : List (List Char),
      start.length ≤ (starters.foldl
        (fun acc w => if w ∈ all_words ∧ w ∉ acc then acc ++ [w] else acc) start).length := by
  induction starters with
  | nil => exact fun _ => le_refl _
  | cons a as ih =>
    intro start
    simp only [List.foldl_cons]
    refine le_trans ?_ (ih _)
    split
    · simp
    · exact le_refl _

theorem words_pre_length (candidates all_words : List (List Char)) (L : Nat)
    (hlen : ∀ w ∈ candidates, w.length = L) :
    ∀ u ∈ words_pre candidates all_words, u.length = L := by
  intro u hu
  unfold words_pre at hu
  split at hu
  · exact hlen u hu
  · split at hu
    · cases hc : candidates.head? with
      | none =>
        rw [hc] at hu
        exact hlen u (List.take_subset 20 candidates hu)
      | some c0 =>
        rw [hc] at hu
        have hc0 : c0 ∈ candidates := by
          cases candidates with
          | nil => cases hc
          | cons x xs =>
            simp only [List.head?_cons, Option.some_inj] at hc
            subst hc
            exact List.mem_cons_self _ _
        refine fold_starters_length _ all_words L _
          (fun v hv => hlen v (List.take_subset 20 candidates hv)) ?_ u hu
        intro v hv
        rw [common_starters_length c0.length v hv]
        exact hlen c0 hc0
    · exact hlen u (List.take_subset 20 candidates hu)

theorem evaluation_set_length (candidates all_words : List (List Char)) (ms L : Nat)
    (hlen : ∀ w ∈ candidates, w.length = L) :
    ∀ w ∈ evaluation_set candidates all_words ms, w.length = L := by
  intro w hw
  unfold evaluation_set at hw
  split at hw
  · exact words_pre_length candidates all_words L hlen w (List.take_subset ms _ hw)
  · exact words_pre_length candidates all_words L hlen w hw

theorem words_pre_pos (candidates all_words : List (List Char))
    (hne : candidates ≠ []) : 0 < (words_pre candidates all_words).length := by
  have hlen : 0 < candidates.length := List.length_pos.mpr hne
  unfold words_pre
  split
  · exact hlen
  · rename_i hgt
    have htake : 0 < (candidates.take 20).length := by
      rw [List.length_take]
      omega
    split
    · cases hc : candidates.head? with
      | none => exact htake
      | some c0 => exact lt_of_lt_of_le htake (fold_starters_length_ge _ all_words _)
    · exact htake

theorem evaluation_set_ne_nil (candidates all_words : List (List Char)) (ms : Nat)
    (hms : 0 < ms) (hne : candidates ≠ []) :
    evaluation_set candidates all_words ms ≠ [] := by
  have hpos := words_pre_pos candidates all_words hne
  intro hcontra
  have := congrArg List.length hcontra
  unfold evaluation_set at this
  simp only [List.length_nil] at this
  split at this
  · rw [List.length_take] at this
    omega
  · omega

theorem best_loop_some (candidates : List (List Char)) (L : Nat)
    (hcand : ∀ w ∈ candidates, w.length ≤ L) :
    ∀ (ws : List (List Char)) (best : List Char × ℝ),
      (∀ w ∈ ws, w.length = L) → best.1.length = L →
      ∃ r, best_loop candidates ws best = some r ∧ r.1.length = L := by
  intro ws
  induction ws with
  | nil => exact fun best _ hb => ⟨best, rfl, hb⟩
  | cons w ws' ih =>
    intro best hws hb
    have hw : w.length = L := hws w (List.mem_cons_self _ _)
    have hent := calculate_entropy_some w candidates fun u hu => hw ▸ hcand u hu
    simp only [best_loop, hent, Option.some_bind]
    have hstep : ∀ (c : Prop) (inst : Decidable c) (p q : List Char × ℝ),
        p.1.length = L → q.1.length = L → (if c then p else q).1.length = L := by
      intro c inst p q hp hq
      split
      · exact hp
      · exact hq
    exact ih _ (fun u hu => hws u (List.mem_cons_of_mem _ hu)) (hstep _ _ _ _ hw hb)

theorem get_optimal_guess_some (candidates all_words : List (List Char)) (L : Nat)
    (hne : candidates ≠ []) (hlen : ∀ w ∈ candidates, w.length = L) :
    ∃ g, get_optimal_guess candidates all_words 30 = some g ∧ g.length = L := by
  cases candidates with
  | nil => exact absurd rfl hne
  | cons c0 cs =>
    have hc0 : c0.length = L := hlen c0 (List.mem_cons_self _ _)
    unfold get_optimal_guess
    split
    · exact ⟨c0, rfl, hc0⟩
    · split
      · exact ⟨c0, rfl, hc0⟩
      · simp only [List.head?_cons]
        obtain ⟨r, hr, hrlen⟩ := best_loop_some (c0 :: cs) L
          (fun w hw => le_of_eq (hlen w hw))
          (evaluation_set (c0 :: cs) all_words 30)
          (c0, (-1 : ℝ))
          (evaluation_set_length (c0 :: cs) all_words 30 L hlen)
          hc0
        exact ⟨r.1, by rw [hr]; rfl, hrlen⟩

/-! ### The game loop -/

theorem play_loop_spec (secret : List Char) (all_words : List (List Char)) :
    ∀ (fuel : Nat) (candidates guesses : List (List Char)) (feedbacks : List (List Tile)),
      candidates ≠ [] → (∀ w ∈ candidates, w.length = secret.length) →
      ∃ newgs newfbs won,
        play_loop secret all_words fuel candidates guesses feedbacks =
          some (guesses ++ newgs, feedbacks ++ newfbs, won) ∧
        newgs.length ≤ fuel ∧ (won = true ↔ secret ∈ newgs) := by
  intro fuel
  induction fuel with
  | zero =>
    intro candidates guesses feedbacks _ _
    exact ⟨[], [], false, by simp [play_loop], by simp, by simp⟩
  | succ fuel ih =>
    intro candidates guesses feedbacks hne hlen
    obtain ⟨g, hg, hglen⟩ :=
      get_optimal_guess_some candidates all_words secret.length hne hlen
    have hfb : generate_feedback g secret = some (feedback_total g secret) :=
      generate_feedback_some (le_of_eq hglen.symm)
    by_cases hgs : g = secret
    · subst hgs
      refine ⟨[g], [feedback_total g g], true, ?_, by simp, by simp⟩
      simp [play_loop, hg, hfb]
    · obtain ⟨l, hl⟩ := apply_feedback_some candidates g (feedback_total g secret)
        fun u hu => le_of_eq ((hlen u hu).trans hglen.symm)
      have hllen : ∀ w ∈ l, w.length = secret.length :=
        fun w hw => hlen w ((apply_feedback_sublist _ _ _ _ hl).subset hw)
      by_cases hl0 : l.length = 0
      · have hlnil : l = [] := List.length_eq_zero.mp hl0
        subst hlnil
        refine ⟨[g], [feedback_total g secret], false, ?_, by simp, ?_⟩
        · simp [play_loop, hg, hfb, hgs, hl]
        · constructor
          · intro hc
            exact absurd hc (by decide)
          · intro hc
            rw [List.mem_singleton] at hc
            exact absurd hc.symm hgs
      · have hlne : l ≠ [] := fun hc => hl0 (by simp [hc])
        obtain ⟨newgs, newfbs, won, hplay, hle, hwon⟩ :=
          ih l (guesses ++ [g]) (feedbacks ++ [feedback_total g secret]) hlne hllen
        refine ⟨g :: newgs, feedback_total g secret :: newfbs, won, ?_, ?_, ?_⟩
        · simp only [play_loop, hg, hfb, Option.some_bind, if_neg hgs, hl, if_neg hl0]
          rw [hplay]
          simp
        · simp only [List.length_cons]
          omega
        · rw [hwon, List.mem_cons]
          exact ⟨fun h => Or.inr h, fun h => by
            rcases h with h1 | h2
            · exact absurd h1.symm hgs
            · exact h2⟩

/-- Like `play_loop_spec`, with the stronger invariant that the secret
sits in the candidate pool: the empty-pool early exit is then never
taken, so a game that does not win uses all its remaining turns. -/
theorem play_loop_retention (secret : List Char) (all_words : List (List Char)) :
    ∀ (fuel : Nat) (candidates guesses : List (List Char)) (feedbacks : List (List Tile)),
      secret ∈ candidates → (∀ w ∈ candidates, w.length = secret.length) →
      ∃ newgs newfbs won,
        play_loop secret all_words fuel candidates guesses feedbacks =
          some (guesses ++ newgs, feedbacks ++ newfbs, won) ∧
        newgs.length ≤ fuel ∧ (won = true ↔ secret ∈ newgs) ∧
        (won = false → newgs.length = fuel) := by
  intro fuel
  induction fuel with
  | zero =>
    intro candidates guesses feedbacks _ _
    exact ⟨[], [], false, by simp [play_loop], by simp, by simp, by simp⟩
  | succ fuel ih =>
    intro candidates guesses feedbacks hmem hlen
    have hne : candidates ≠ [] := List.ne_nil_of_mem hmem
    obtain ⟨g, hg, hglen⟩ :=
      get_optimal_guess_some candidates all_words secret.length hne hlen
    have hfb : generate_feedback g secret = some (feedback_total g secret) :=
      generate_feedback_some (le_of_eq hglen.symm)
    by_cases hgs : g = secret
    · subst hgs
      refine ⟨[g], [feedback_total g g], true, ?_, by simp, by simp, by simp⟩
      simp [play_loop, hg, hfb]
    · obtain ⟨l, hl⟩ := apply_feedback_some candidates g (feedback_total g secret)
        fun u hu => le_of_eq ((hlen u hu).trans hglen.symm)
      have hllen : ∀ w ∈ l, w.length = secret.length :=
        fun w hw => hlen w ((apply_feedback_sublist _ _ _ _ hl).subset hw)
      have hlmem : secret ∈ l := apply_feedback_retention candidates g secret l hmem hl
      have hl0 : ¬l.length = 0 := by
        have := List.length_pos.mpr (List.ne_nil_of_mem hlmem)
        omega
      obtain ⟨newgs, newfbs, won, hplay, hle, hwon, hlost⟩ :=
        ih l (guesses ++ [g]) (feedbacks ++ [feedback_total g secret]) hlmem hllen
      refine ⟨g :: newgs, feedback_total g secret :: newfbs, won, ?_, ?_, ?_, ?_⟩
      · simp only [play_loop, hg, hfb, Option.some_bind, if_neg hgs, hl, if_neg hl0]
        rw [hplay]
        simp
      · simp only [List.length_cons]
        omega
      · rw [hwon, List.mem_cons]
        exact ⟨fun h => Or.inr h, fun h => by
          rcases h with h1 | h2
          · exact absurd h1.symm hgs
          · exact h2⟩
      · intro hwf
        simp only [List.length_cons, hlost hwf]

/-- C6: with a non-empty dictionary of words of the secret's length
the simulator terminates (the Python loop is a bounded `range` loop,
modelled as fuelled recursion, and every step's intermediate operations
succeed), records at most `maxTurns = 6` guesses, and reports `won`
exactly when some recorded guess equals the secret. -/
theorem claim_C6 (secret : List Char) (all_words : List (List Char))
    (hne : all_words ≠ []) (hlen : ∀ w ∈ all_words, w.length = secret.length) :
    ∃ r, play_optimal_game secret all_words 6 = some r ∧
      r.num_guesses ≤ 6 ∧ (r.won = true ↔ secret ∈ r.guesses) := by
  obtain ⟨newgs, newfbs, won, hplay, hle, hwon⟩ :=
    play_loop_spec secret all_words 6 all_words [] [] hne hlen
  refine ⟨⟨secret, newgs, newfbs, won, newgs.length⟩, ?_, hle, hwon⟩
  unfold play_optimal_game
  rw [hplay]
  simp

/-- C6 witness. -/
theorem claim_C6_witness :
    ((([['a']] : List (List Char)) ≠ []) ∧ ∀ w ∈ [['a']], w.length = (['a'] : List Char).length) ∧
      ∃ r, play_optimal_game ['a'] [['a']] 6 = some r ∧
        r.num_guesses ≤ 6 ∧ (r.won = true ↔ (['a'] : List Char) ∈ r.guesses) :=
  ⟨⟨by decide, by decide⟩, claim_C6 ['a'] [['a']] (by decide) (by decide)⟩

/-- C3: true-candidate retention.  A secret belonging to the pool always
survives filtering by its own feedback; consequently a simulated game
whose secret is in the initial pool never exhausts its candidate pool,
so a lost game always uses all `maxTurns` turns. -/
theorem claim_C3 (pool : List (List Char)) (guess secret : List Char)
    (hg : guess.length = secret.length)
    (hpool : ∀ w ∈ pool, w.length = secret.length)
    (hmem : secret ∈ pool) :
    (∃ fb newPool, generate_feedback guess secret = some fb ∧
        apply_feedback_to_candidates pool guess fb = some newPool ∧
        secret ∈ newPool) ∧
      ∀ max_guesses, ∃ r, play_optimal_game secret pool max_guesses = some r ∧
        (r.won = false → r.num_guesses = max_guesses) := by
  constructor
  · obtain ⟨l, hl⟩ := apply_feedback_some pool guess (feedback_total guess secret)
      fun u hu => le_of_eq ((hpool u hu).trans hg.symm)
    exact ⟨feedback_total guess secret, l,
      generate_feedback_some (le_of_eq hg.symm), hl,
      apply_feedback_retention pool guess secret l hmem hl⟩
  · intro max_guesses
    obtain ⟨newgs, newfbs, won, hplay, hle, hwon, hlost⟩ :=
      play_loop_retention secret pool max_guesses pool [] [] hmem hpool
    refine ⟨⟨secret, newgs, newfbs, won, newgs.length⟩, ?_, ?_⟩
    · unfold play_optimal_game
      rw [hplay]
      simp
    · intro hwf
      exact hlost hwf

/-- C3 witness. -/
theorem claim_C3_witness :
    ((['a'] : List Char).length = (['b'] : List Char).length ∧
        (∀ w ∈ [['a'], ['b']], w.length = (['b'] : List Char).length) ∧
        (['b'] : List Char) ∈ [['a'], ['b']]) ∧
      (∃ fb newPool, generate_feedback ['a'] ['b'] = some fb ∧
          apply_feedback_to_candidates [['a'], ['b']] ['a'] fb = some newPool ∧
          (['b'] : List Char) ∈ newPool) ∧
        ∀ max_guesses, ∃ r, play_optimal_game ['b'] [['a'], ['b']] max_guesses = some r ∧
          (r.won = false → r.num_guesses = max_guesses) :=
  ⟨⟨by decide, by decide, by decide⟩,
    claim_C3 [['a'], ['b']] ['a'] ['b'] (by decide) (by decide) (by decide)⟩

/-! ### Entropy mathematics -/

/-- The two `BEq (List Tile)` instances in scope (the structural one and
the one derived from decidable equality) count identically. -/
theorem count_decEq_eq (a : List Tile) (l : List (List Tile)) :
    @List.count (List Tile) (@instBEqOfDecidableEq (List Tile) _) a l = l.count a := by
  induction l with
  | nil => rfl
  | cons b t ih =>
    rw [@List.count_cons _ (@instBEqOfDecidableEq (List Tile) _), List.count_cons, ih]
    congr 1
    have hdec : @BEq.beq _ (@instBEqOfDecidableEq (List Tile) _) b a = decide (b = a) := rfl
    rw [hdec]
    by_cases h : b = a
    · simp [h]
    · simp [h]

theorem sum_count_toFinset (patterns : List (List Tile)) :
    ∑ p in patterns.toFinset, patterns.count p = patterns.length := by
  have hM := List.sum_toFinset_count_eq_length patterns
  rw [Finset.sum_congr rfl fun p _ => count_decEq_eq p patterns] at hM
  exact hM

theorem nodup_iff_count_le_one_tiles (patterns : List (List Tile)) :
    patterns.Nodup ↔ ∀ p, patterns.count p ≤ 1 := by
  rw [List.nodup_iff_count_le_one]
  refine forall_congr' fun p => ?_
  rw [count_decEq_eq]

theorem entropy_core_eq (patterns : List (List Tile)) (hne : patterns ≠ []) :
    entropy_core patterns =
      Real.logb 2 patterns.length -
        (∑ p in patterns.toFinset,
          (patterns.count p : ℝ) * Real.logb 2 (patterns.count p)) / patterns.length := by
  have hn : (0 : ℝ) < patterns.length := by
    have := List.length_pos.mpr hne
    exact_mod_cast this
  have hfin : patterns.dedup.toFinset = patterns.toFinset := by
    ext a
    simp [List.mem_dedup]
  have hsum : (∑ p in patterns.toFinset, (patterns.count p : ℝ)) = (patterns.length : ℝ) := by
    rw [← Nat.cast_sum]
    exact_mod_cast sum_count_toFinset patterns
  unfold entropy_core
  rw [← List.sum_toFinset _ (List.nodup_dedup patterns), hfin]
  have hstep : ∀ p ∈ patterns.toFinset,
      (if 0 < patterns.count p then
        ((patterns.count p : ℝ) / patterns.length) *
          Real.logb 2 ((patterns.count p : ℝ) / patterns.length) else 0) =
      ((patterns.count p : ℝ) * Real.logb 2 (patterns.count p)) / patterns.length
        - ((patterns.count p : ℝ) / patterns.length) * Real.logb 2 patterns.length := by
    intro p hp
    have hcpos : 0 < patterns.count p := List.count_pos_iff.mpr (List.mem_toFinset.mp hp)
    have hcR : (0 : ℝ) < (patterns.count p : ℝ) := by exact_mod_cast hcpos
    rw [if_pos hcpos, Real.logb_div (ne_of_gt hcR) (ne_of_gt hn)]
    ring
  rw [Finset.sum_congr rfl hstep, Finset.sum_sub_distrib, ← Finset.sum_div, ← Finset.sum_mul,
    ← Finset.sum_div, hsum, div_self (ne_of_gt hn)]
  ring

theorem count_logb_nonneg (patterns : List (List Tile)) (p : List Tile)
    (hp : p ∈ patterns.toFinset) :
    0 ≤ (patterns.count p : ℝ) * Real.logb 2 (patterns.count p) := by
  have hcpos : 0 < patterns.count p := List.count_pos_iff.mpr (List.mem_toFinset.mp hp)
  have h1 : (1 : ℝ) ≤ (patterns.count p : ℝ) := by exact_mod_cast hcpos
  exact mul_nonneg (by positivity) (Real.logb_nonneg (by norm_num) h1)

theorem entropy_core_le (patterns : List (List Tile)) (hne : patterns ≠ []) :
    entropy_core patterns ≤ Real.logb 2 patterns.length := by
  have hn : (0 : ℝ) < patterns.length := by
    have := List.length_pos.mpr hne
    exact_mod_cast this
  rw [entropy_core_eq patterns hne]
  have hS : 0 ≤ ∑ p in patterns.toFinset,
      (patterns.count p : ℝ) * Real.logb 2 (patterns.count p) :=
    Finset.sum_nonneg (count_logb_nonneg patterns)
  have : 0 ≤ (∑ p in patterns.toFinset,
      (patterns.count p : ℝ) * Real.logb 2 (patterns.count p)) / patterns.length :=
    div_nonneg hS hn.le
  linarith

theorem nodup_iff_counts_one (patterns : List (List Tile)) :
    patterns.Nodup ↔ ∀ p ∈ patterns.toFinset, patterns.count p = 1 := by
  rw [nodup_iff_count_le_one_tiles]
  constructor
  · intro hnd p hp
    have h1 : patterns.count p ≤ 1 := hnd p
    have h2 : 0 < patterns.count p := List.count_pos_iff.mpr (List.mem_toFinset.mp hp)
    omega
  · intro hc a
    by_cases ha : a ∈ patterns
    · exact le_of_eq (hc a (List.mem_toFinset.mpr ha))
    · rw [List.count_eq_zero_of_not_mem ha]
      omega

theorem entropy_core_eq_log_iff (patterns : List (List Tile)) (hne : patterns ≠ []) :
    entropy_core patterns = Real.logb 2 patterns.length ↔ patterns.Nodup := by
  have hn : (0 : ℝ) < patterns.length := by
    have := List.length_pos.mpr hne
    exact_mod_cast this
  rw [entropy_core_eq patterns hne, nodup_iff_counts_one]
  rw [sub_eq_self, div_eq_zero_iff, or_iff_left (ne_of_gt hn),
    Finset.sum_eq_zero_iff_of_nonneg (count_logb_nonneg patterns)]
  constructor
  · intro h p hp
    have hterm := h p hp
    have hcpos : 0 < patterns.count p := List.count_pos_iff.mpr (List.mem_toFinset.mp hp)
    have hcR : (0 : ℝ) < (patterns.count p : ℝ) := by exact_mod_cast hcpos
    rcases mul_eq_zero.mp hterm with hc | hl
    · exact absurd hc (ne_of_gt hcR)
    · have := Real.eq_one_of_pos_of_logb_eq_zero (by norm_num : (1:ℝ) < 2) hcR hl
      exact_mod_cast this
  · intro h p hp
    rw [h p hp]
    simp

theorem entropy_core_eq_zero_iff (patterns : List (List Tile)) (hne : patterns ≠ []) :
    entropy_core patterns = 0 ↔ ∀ p ∈ patterns, ∀ q ∈ patterns, p = q := by
  have hn : (0 : ℝ) < patterns.length := by
    have := List.length_pos.mpr hne
    exact_mod_cast this
  have hsum : (∑ p in patterns.toFinset, (patterns.count p : ℝ)) = (patterns.length : ℝ) := by
    rw [← Nat.cast_sum]
    exact_mod_cast sum_count_toFinset patterns
  rw [entropy_core_eq patterns hne, sub_eq_zero, eq_div_iff (ne_of_gt hn)]
  have hsplit : (∑ p in patterns.toFinset,
      (patterns.count p : ℝ) * (Real.logb 2 patterns.length -
        Real.logb 2 (patterns.count p))) =
      (patterns.length : ℝ) * Real.logb 2 patterns.length -
        (∑ p in patterns.toFinset,
          (patterns.count p : ℝ) * Real.logb 2 (patterns.count p)) := by
    rw [Finset.sum_congr rfl (fun p _ => by ring :
      ∀ p ∈ patterns.toFinset,
        (patterns.count p : ℝ) * (Real.logb 2 patterns.length -
          Real.logb 2 (patterns.count p)) =
        (patterns.count p : ℝ) * Real.logb 2 patterns.length -
          (patterns.count p : ℝ) * Real.logb 2 (patterns.count p)),
      Finset.sum_sub_distrib, ← Finset.sum_mul, hsum]
  have hiff : Real.logb 2 patterns.length * (patterns.length : ℝ) =
      (∑ p in patterns.toFinset,
        (patterns.count p : ℝ) * Real.logb 2 (patterns.count p)) ↔
      (∑ p in patterns.toFinset,
        (patterns.count p : ℝ) * (Real.logb 2 patterns.length -
          Real.logb 2 (patterns.count p))) = 0 := by
    rw [hsplit]
    constructor
    · intro h
      linarith
    · intro h
      linarith
  rw [hiff]
  have hterm_nonneg : ∀ p ∈ patterns.toFinset,
      0 ≤ (patterns.count p : ℝ) * (Real.logb 2 patterns.length -
        Real.logb 2 (patterns.count p)) := by
    intro p hp
    have hcpos : 0 < patterns.count p := List.count_pos_iff.mpr (List.mem_toFinset.mp hp)
    have hcR : (0 : ℝ) < (patterns.count p : ℝ) := by exact_mod_cast hcpos
    have hcle : (patterns.count p : ℝ) ≤ (patterns.length : ℝ) := by
      exact_mod_cast List.count_le_length p patterns
    have := Real.logb_le_logb_of_le (by norm_num : (1:ℝ) < 2) hcR hcle
    nlinarith
  rw [Finset.sum_eq_zero_iff_of_nonneg hterm_nonneg]
  constructor
  · intro h p hp q hq
    have hcount : ∀ r ∈ patterns.toFinset, patterns.count r = patterns.length := by
      intro r hr
      have hterm := h r hr
      have hcpos : 0 < patterns.count r := List.count_pos_iff.mpr (List.mem_toFinset.mp hr)
      have hcR : (0 : ℝ) < (patterns.count r : ℝ) := by exact_mod_cast hcpos
      rcases mul_eq_zero.mp hterm with hc | hl
      · exact absurd hc (ne_of_gt hcR)
      · have hloge : Real.logb 2 (patterns.count r) = Real.logb 2 patterns.length := by
          linarith [sub_eq_zero.mp hl]
        by_contra hne'
        have hclt : patterns.count r < patterns.length :=
          lt_of_le_of_ne (List.count_le_length r patterns) hne'
        have hcltR : (patterns.count r : ℝ) < (patterns.length : ℝ) := by
          exact_mod_cast hclt
        have := Real.logb_lt_logb (by norm_num : (1:ℝ) < 2) hcR hcltR
        linarith
    have hap : ∀ b ∈ patterns, p = b :=
      List.count_eq_length.mp (hcount p (List.mem_toFinset.mpr hp))
    exact (hap p hp).symm.trans (hap q hq)
  · intro h p hp
    have hpm : p ∈ patterns := List.mem_toFinset.mp hp
    have hcl : patterns.count p = patterns.length :=
      List.count_eq_length.mpr fun b hb => h p hpm b hb
    rw [hcl]
    simp

/-- C4: entropy of the empty pool is `0`; entropy is `0` exactly when
every pool member produces the same feedback pattern against the guess;
and for a non-empty pool entropy is at most `log2 |pool|`, with equality
exactly when every member produces a distinct pattern. -/
theorem claim_C4 (guess : List Char) (pool : List (List Char))
    (hlen : ∀ w ∈ pool, w.length = guess.length) :
    calculate_entropy guess [] = some 0 ∧
      ∃ H, calculate_entropy guess pool = some H ∧
        (H = 0 ↔ ∀ w₁ ∈ pool, ∀ w₂ ∈ pool,
          generate_feedback guess w₁ = generate_feedback guess w₂) ∧
        (pool ≠ [] →
          H ≤ Real.logb 2 pool.length ∧
          (H = Real.logb 2 pool.length ↔ (pool.map (generate_feedback guess)).Nodup)) := by
  have hle : ∀ w ∈ pool, w.length ≤ guess.length := fun w hw => le_of_eq (hlen w hw)
  have hce := calculate_entropy_some guess pool hle
  have hmapeq : pool.map (generate_feedback guess) =
      (pool.map (feedback_total guess)).map some := by
    rw [List.map_map]
    exact List.map_congr_left fun w hw => generate_feedback_some (le_of_eq (hlen w hw))
  refine ⟨by simp [calculate_entropy],
    entropy_core (pool.map (feedback_total guess)), hce, ?_, ?_⟩
  · by_cases hpool : pool = []
    · subst hpool
      have h0 : entropy_core (([] : List (List Char)).map (feedback_total guess)) = 0 := by
        simp [entropy_core]
      exact iff_of_true h0 fun w₁ h1 => absurd h1 (List.not_mem_nil w₁)
    · have hpne : pool.map (feedback_total guess) ≠ [] :=
        fun hc => hpool (List.map_eq_nil_iff.mp hc)
      rw [entropy_core_eq_zero_iff _ hpne]
      constructor
      · intro h w₁ hw1 w₂ hw2
        rw [generate_feedback_some (le_of_eq (hlen w₁ hw1)),
          generate_feedback_some (le_of_eq (hlen w₂ hw2))]
        exact congrArg some
          (h _ (List.mem_map_of_mem _ hw1) _ (List.mem_map_of_mem _ hw2))
      · intro h p hp q hq
        obtain ⟨w₁, hw1, rfl⟩ := List.mem_map.mp hp
        obtain ⟨w₂, hw2, rfl⟩ := List.mem_map.mp hq
        have := h w₁ hw1 w₂ hw2
        rw [generate_feedback_some (le_of_eq (hlen w₁ hw1)),
          generate_feedback_some (le_of_eq (hlen w₂ hw2))] at this
        exact Option.some_inj.mp this
  · intro hpool
    have hpne : pool.map (feedback_total guess) ≠ [] :=
      fun hc => hpool (List.map_eq_nil_iff.mp hc)
    have hlenm : (pool.map (feedback_total guess)).length = pool.length :=
      List.length_map pool _
    constructor
    · have := entropy_core_le _ hpne
      rwa [hlenm] at this
    · have hlog := entropy_core_eq_log_iff _ hpne
      rw [hlenm] at hlog
      rw [hlog, hmapeq]
      exact ⟨fun h => List.Nodup.map (Option.some_injective _) h,
        fun h => List.Nodup.of_map some h⟩

/-- C4 witness. -/
theorem claim_C4_witness :
    (∀ w ∈ [['a', 'b'], ['b', 'a']], w.length = (['a', 'b'] : List Char).length) ∧
      (calculate_entropy ['a', 'b'] [] = some 0 ∧
        ∃ H, calculate_entropy ['a', 'b'] [['a', 'b'], ['b', 'a']] = some H ∧
          (H = 0 ↔ ∀ w₁ ∈ [['a', 'b'], ['b', 'a']], ∀ w₂ ∈ [['a', 'b'], ['b', 'a']],
            generate_feedback ['a', 'b'] w₁ = generate_feedback ['a', 'b'] w₂) ∧
          (([['a', 'b'], ['b', 'a']] : List (List Char)) ≠ [] →
            H ≤ Real.logb 2 ([['a', 'b'], ['b', 'a']] : List (List Char)).length ∧
            (H = Real.logb 2 ([['a', 'b'], ['b', 'a']] : List (List Char)).length ↔
              ([['a', 'b'], ['b', 'a']].map (generate_feedback ['a', 'b'])).Nodup))) :=
  ⟨by decide, claim_C4 ['a', 'b'] [['a', 'b'], ['b', 'a']] (by decide)⟩

/-! ### The selector as the spec describes it (refinement target for C5) -/

/-- The spec's selector score: `entropy(w, pool)` plus a `0.1` bonus for
pool members (`score(w) = entropy(w, pool) + (BONUS if w ∈ pool else 0)`). -/
noncomputable def score_spec (candidates : List (List Char)) (w : List Char) : ℝ :=
  entropy_core (candidates.map (feedback_total w)) +
    (if w ∈ candidates then (0.1 : ℝ) else 0)

/-- The spec's argmax with ties resolved in favor of the word
encountered first in evaluation order. -/
noncomputable def argmax_first (score : List Char → ℝ) : List (List Char) → Option (List Char)
  | [] => none
  | w :: ws =>
    match argmax_first score ws with
    | none => some w
    | some b => if score w < score b then some b else some w

/-- The selector as the spec states it: sole member for a singleton
pool, first member for a two-word pool, otherwise the first-wins argmax
of `score_spec` over the bounded evaluation set. -/
noncomputable def select_spec (candidates all_words : List (List Char)) (max_search : Nat) :
    Option (List Char) :=
  if candidates.length = 1 then candidates.head?
  else if candidates.length = 2 then candidates.head?
  else argmax_first (score_spec candidates) (evaluation_set candidates all_words max_search)

theorem argmax_first_nil (score : List Char → ℝ) : argmax_first score [] = none := by
  unfold argmax_first
  rfl

theorem argmax_first_cons_none {score : List Char → ℝ} {w : List Char}
    {ws : List (List Char)} (h : argmax_first score ws = none) :
    argmax_first score (w :: ws) = some w := by
  unfold argmax_first
  rw [h]

theorem argmax_first_cons_some {score : List Char → ℝ} {w b : List Char}
    {ws : List (List Char)} (h : argmax_first score ws = some b) :
    argmax_first score (w :: ws) =
      if score w < score b then some b else some w := by
  unfold argmax_first
  rw [h]

theorem argmax_first_ne_none (score : List Char → ℝ) (l : List (List Char))
    (hl : l ≠ []) : argmax_first score l ≠ none := by
  cases l with
  | nil => exact absurd rfl hl
  | cons w ws =>
    cases hb : argmax_first score ws with
    | none => simp [argmax_first_cons_none hb]
    | some b =>
      rw [argmax_first_cons_some hb]
      split <;> simp

theorem argmax_first_ge (score : List Char → ℝ) :
    ∀ (l : List (List Char)) (m : List Char), argmax_first score l = some m →
      ∀ x ∈ l, score x ≤ score m := by
  intro l
  induction l with
  | nil => intro m hm; cases hm
  | cons w ws ih =>
    intro m hm x hx
    cases hb : argmax_first score ws with
    | none =>
      rw [argmax_first_cons_none hb] at hm
      have hwm : w = m := Option.some_inj.mp hm
      have hws : ws = [] := by
        by_contra hc
        exact argmax_first_ne_none score ws hc hb
      subst hws
      rw [List.mem_singleton] at hx
      rw [hx, ← hwm]
    | some b =>
      rw [argmax_first_cons_some hb] at hm
      rcases List.mem_cons.mp hx with hxw | hxs
      · by_cases hwb : score w < score b
        · rw [if_pos hwb] at hm
          rw [hxw, ← Option.some_inj.mp hm]
          exact le_of_lt hwb
        · rw [if_neg hwb] at hm
          rw [hxw, ← Option.some_inj.mp hm]
      · have hxb := ih b hb x hxs
        by_cases hwb : score w < score b
        · rw [if_pos hwb] at hm
          rw [← Option.some_inj.mp hm]
          exact hxb
        · rw [if_neg hwb] at hm
          rw [← Option.some_inj.mp hm]
          exact le_trans hxb (le_of_not_lt hwb)

theorem entropy_core_nonneg (patterns : List (List Tile)) : 0 ≤ entropy_core patterns := by
  by_cases hne : patterns = []
  · subst hne
    simp [entropy_core]
  · have hn : (0 : ℝ) < patterns.length := by
      have := List.length_pos.mpr hne
      exact_mod_cast this
    have hsum : (∑ p in patterns.toFinset, (patterns.count p : ℝ)) =
        (patterns.length : ℝ) := by
      rw [← Nat.cast_sum]
      exact_mod_cast sum_count_toFinset patterns
    rw [entropy_core_eq patterns hne]
    have hterm : ∀ p ∈ patterns.toFinset,
        (patterns.count p : ℝ) * Real.logb 2 (patterns.count p) ≤
          (patterns.count p : ℝ) * Real.logb 2 patterns.length := by
      intro p hp
      have hcpos : 0 < patterns.count p := List.count_pos_iff.mpr (List.mem_toFinset.mp hp)
      have hcR : (0 : ℝ) < (patterns.count p : ℝ) := by exact_mod_cast hcpos
      have hcle : (patterns.count p : ℝ) ≤ (patterns.length : ℝ) := by
        exact_mod_cast List.count_le_length p patterns
      exact mul_le_mul_of_nonneg_left
        (Real.logb_le_logb_of_le (by norm_num) hcR hcle) hcR.le
    have hSle : (∑ p in patterns.toFinset,
        (patterns.count p : ℝ) * Real.logb 2 (patterns.count p)) ≤
          (patterns.length : ℝ) * Real.logb 2 patterns.length := by
      calc (∑ p in patterns.toFinset,
          (patterns.count p : ℝ) * Real.logb 2 (patterns.count p))
          ≤ ∑ p in patterns.toFinset,
            (patterns.count p : ℝ) * Real.logb 2 patterns.length :=
            Finset.sum_le_sum hterm
        _ = (patterns.length : ℝ) * Real.logb 2 patterns.length := by
            rw [← Finset.sum_mul, hsum]
    have : (∑ p in patterns.toFinset,
        (patterns.count p : ℝ) * Real.logb 2 (patterns.count p)) / patterns.length ≤
          Real.logb 2 patterns.length := by
      rw [div_le_iff₀ hn]
      linarith
    linarith

theorem score_spec_nonneg (candidates : List (List Char)) (w : List Char) :
    0 ≤ score_spec candidates w := by
  unfold score_spec
  have h1 := entropy_core_nonneg (candidates.map (feedback_total w))
  have h2 : (0 : ℝ) ≤ if w ∈ candidates then (0.1 : ℝ) else 0 := by
    split <;> norm_num
  linarith

/-- The scoring loop started from an already-scored accumulator computes
the first-wins argmax of the remaining evaluation words. -/
theorem best_loop_eq_argmax (candidates : List (List Char)) (L : Nat)
    (hcand : ∀ w ∈ candidates, w.length ≤ L) :
    ∀ (ws : List (List Char)) (b : List Char), (∀ w ∈ ws, w.length = L) →
      ∃ m, argmax_first (score_spec candidates) (b :: ws) = some m ∧
        best_loop candidates ws (b, score_spec candidates b) =
          some (m, score_spec candidates m) := by
  intro ws
  induction ws with
  | nil =>
    intro b _
    refine ⟨b, ?_, rfl⟩
    unfold argmax_first
    rfl
  | cons w ws' ih =>
    intro b hlen
    have hw : w.length = L := hlen w (List.mem_cons_self _ _)
    have hent := calculate_entropy_some w candidates fun u hu => hw ▸ hcand u hu
    have hsc : entropy_core (candidates.map (feedback_total w)) +
        (if w ∈ candidates then (0.1 : ℝ) else 0) = score_spec candidates w := rfl
    by_cases hcmp : score_spec candidates b < score_spec candidates w
    · obtain ⟨m, hm, hbl⟩ := ih w fun u hu => hlen u (List.mem_cons_of_mem _ hu)
      refine ⟨m, ?_, ?_⟩
      · have hwm : score_spec candidates w ≤ score_spec candidates m :=
          argmax_first_ge _ _ m hm w (List.mem_cons_self _ _)
        rw [argmax_first_cons_some hm]
        rw [if_pos (lt_of_lt_of_le hcmp hwm)]
      · simp only [best_loop, hent, Option.some_bind, hsc]
        rw [if_pos hcmp]
        exact hbl
    · obtain ⟨m, hm, hbl⟩ := ih b fun u hu => hlen u (List.mem_cons_of_mem _ hu)
      refine ⟨m, ?_, ?_⟩
      · cases hc : argmax_first (score_spec candidates) ws' with
        | none =>
          have hws' : ws' = [] := by
            by_contra hcc
            exact argmax_first_ne_none _ ws' hcc hc
          subst hws'
          rw [argmax_first_cons_none (argmax_first_nil _)] at hm
          have hbm : b = m := Option.some_inj.mp hm
          rw [argmax_first_cons_some (argmax_first_cons_none (argmax_first_nil _)), if_neg hcmp]
          exact congrArg some hbm
        | some c =>
          rw [argmax_first_cons_some hc] at hm
          by_cases hwc : score_spec candidates w < score_spec candidates c
          · have hinner : argmax_first (score_spec candidates) (w :: ws') = some c := by
              rw [argmax_first_cons_some hc]
              exact if_pos hwc
            rw [argmax_first_cons_some hinner]
            exact hm
          · have hcw : score_spec candidates c ≤ score_spec candidates w :=
              le_of_not_lt hwc
            have hwb : score_spec candidates w ≤ score_spec candidates b :=
              le_of_not_lt hcmp
            have hncb : ¬ score_spec candidates b < score_spec candidates c :=
              not_lt.mpr (le_trans hcw hwb)
            rw [if_neg hncb] at hm
            have hinner : argmax_first (score_spec candidates) (w :: ws') = some w := by
              rw [argmax_first_cons_some hc]
              exact if_neg hwc
            rw [argmax_first_cons_some hinner, if_neg hcmp]
            exact hm
      · simp only [best_loop, hent, Option.some_bind, hsc]
        rw [if_neg hcmp]
        exact hbl

/-- C5: the guess selector follows the spec's strict priority: the sole
member for a singleton pool, the first member for a two-word pool, and
otherwise the first-wins argmax of entropy plus the `0.1`
pool-membership bonus over the bounded evaluation set. -/
theorem claim_C5 (candidates all_words : List (List Char)) (L : Nat)
    (hne : candidates ≠ []) (hlen : ∀ w ∈ candidates, w.length = L) :
    ∃ g, get_optimal_guess candidates all_words 30 = some g ∧
      select_spec candidates all_words 30 = some g := by
  cases candidates with
  | nil => exact absurd rfl hne
  | cons c0 cs =>
    unfold get_optimal_guess select_spec
    by_cases h1 : (c0 :: cs).length = 1
    · rw [if_pos h1, if_pos h1]
      exact ⟨c0, rfl, rfl⟩
    · rw [if_neg h1, if_neg h1]
      by_cases h2 : (c0 :: cs).length = 2
      · rw [if_pos h2, if_pos h2]
        exact ⟨c0, rfl, rfl⟩
      · rw [if_neg h2, if_neg h2]
        simp only [List.head?_cons]
        have hev : evaluation_set (c0 :: cs) all_words 30 ≠ [] :=
          evaluation_set_ne_nil _ all_words 30 (by norm_num) (by simp)
        have hevlen := evaluation_set_length (c0 :: cs) all_words 30 L hlen
        have hcand_le : ∀ u ∈ (c0 :: cs), u.length ≤ L :=
          fun u hu => le_of_eq (hlen u hu)
        cases hevc : evaluation_set (c0 :: cs) all_words 30 with
        | nil => exact absurd hevc hev
        | cons w ws =>
          have hw : w.length = L :=
            hevlen w (hevc.symm ▸ List.mem_cons_self w ws)
          have hent := calculate_entropy_some w (c0 :: cs)
            fun u hu => hw ▸ hcand_le u hu
          obtain ⟨m, hm, hbl⟩ := best_loop_eq_argmax (c0 :: cs) L hcand_le ws w
            fun u hu => hevlen u (hevc.symm ▸ List.mem_cons_of_mem w hu)
          refine ⟨m, ?_, ?_⟩
          · have hsc : entropy_core ((c0 :: cs).map (feedback_total w)) +
                (if w ∈ (c0 :: cs) then (0.1 : ℝ) else 0) =
                score_spec (c0 :: cs) w := rfl
            simp only [best_loop, hent, Option.some_bind, hsc]
            have hpos : ((c0, (-1 : ℝ)) : List Char × ℝ).2 < score_spec (c0 :: cs) w :=
              lt_of_lt_of_le (by norm_num) (score_spec_nonneg (c0 :: cs) w)
            rw [if_pos hpos, hbl]
            rfl
          · exact hm

/-- C5 witness. -/
theorem claim_C5_witness :
    ((([['a'], ['b'], ['c']] : List (List Char)) ≠ []) ∧
        ∀ w ∈ [['a'], ['b'], ['c']], w.length = 1) ∧
      ∃ g, get_optimal_guess [['a'], ['b'], ['c']] [] 30 = some g ∧
        select_spec [['a'], ['b'], ['c']] [] 30 = some g :=
  ⟨⟨by decide, by decide⟩, claim_C5 [['a'], ['b'], ['c']] [] 1 (by decide) (by decide)⟩

end Wordle
